import Mathlib

/-!
Shallow embedding of `src/behavioral/strategy/src/python/strategy.py`.

Python lists mutated in place are modelled as `List α` values threaded through
the functions; `array[i]` is `List.getD i default` and `array[i] = v` is
`List.set i v`.  The simultaneous assignment `array[i], array[j] =
array[j], array[i]` is `swapL`.  Python's `for`/`while` loops become
structurally recursive functions on an explicit iteration-count argument that
is instantiated with the exact number of iterations the Python loop performs,
so every definition computes by kernel reduction.  The index variable `i` of
`partition`, which starts at `low - 1` and can be `-1` in Python, is
represented by the natural number `iP = i + 1` (so the source's
`i += 1; swap(array[i], array[j])` becomes `swap(array[iP], array[j]);
iP += 1`, and the final `swap(array[i+1], array[high]); return i+1` becomes
`swap(array[iP], array[high]); return iP`).
-/

/-- The simultaneous swap `array[i], array[j] = array[j], array[i]`:
both right-hand sides are read from the original list. -/
def swapL {α : Type*} [Inhabited α] (a : List α) (i j : ℕ) : List α :=
  (a.set i (a.getD j default)).set j (a.getD i default)

namespace QuickSortStrategy

variable {α : Type*} [LinearOrder α] [Inhabited α]

/-- The `for j in range(low, high)` loop body of `partition` (strategy.py
lines 20-24), with `iP = i + 1` and an explicit iteration counter: the guard
`j < high` is what actually stops the loop, the counter is instantiated with
`high - low`, the exact number of iterations.  When the loop ends, the final
`array[i+1], array[high] = array[high], array[i+1]; return i + 1`
(line 25-26) is performed. -/
def partitionGo (pivot : α) : ℕ → List α → ℕ → ℕ → ℕ → List α × ℕ
  | 0, a, iP, _, high => (swapL a iP high, iP)
  | fuel + 1, a, iP, j, high =>
    if j < high then
      if a.getD j default < pivot then
        partitionGo pivot fuel (swapL a iP j) (iP + 1) (j + 1) high
      else
        partitionGo pivot fuel a iP (j + 1) high
    else (swapL a iP high, iP)

/-- `partition(self, array, low, high)` (strategy.py lines 18-26): the pivot is
`array[high]`, and the returned pair is the new list together with the final
pivot position `i + 1`. -/
def partition (a : List α) (low high : ℕ) : List α × ℕ :=
  partitionGo (a.getD high default) (high - low) a low low high

/-- `quick_sort(self, array, low, high)` (strategy.py lines 12-16) with an
explicit recursion-depth counter; `high + 1 - low` is enough (see the
termination theorem), and the `if low < high` guard is what actually stops
the recursion.  Python's recursive call `quick_sort(array, low, pi - 1)`
can pass `pi - 1 = -1` when `pi = 0`; then `low = 0` as well and the call is
a no-op, exactly as the truncated `0 - 1 = 0` call is here. -/
def quickSortGo : ℕ → List α → ℕ → ℕ → List α
  | 0, a, _, _ => a
  | fuel + 1, a, low, high =>
    if low < high then
      quickSortGo fuel
        (quickSortGo fuel (partition a low high).1 low ((partition a low high).2 - 1))
        ((partition a low high).2 + 1) high
    else a

/-- `quick_sort` at its well-founded recursion depth. -/
def quick_sort (a : List α) (low high : ℕ) : List α :=
  quickSortGo (high + 1 - low) a low high

/-- `QuickSortStrategy.sort(self, array)` (strategy.py lines 9-10):
`quick_sort(array, 0, len(array) - 1)`. -/
def sort (a : List α) : List α :=
  quick_sort a 0 (a.length - 1)

end QuickSortStrategy

namespace BubbleSortStrategy

variable {α : Type*} [LinearOrder α] [Inhabited α]

/-- The inner loop `for j in range(n - 1 - i): if array[j] > array[j + 1]:
array[j], array[j + 1] = array[j + 1], array[j]` (strategy.py lines 32-34),
with `m = n - 1 - i` and an explicit iteration counter instantiated with
`m - j`. -/
def bubbleInnerGo : ℕ → List α → ℕ → ℕ → List α
  | 0, a, _, _ => a
  | fuel + 1, a, j, m =>
    if j < m then
      bubbleInnerGo fuel
        (if a.getD j default > a.getD (j + 1) default then swapL a j (j + 1) else a)
        (j + 1) m
    else a

/-- The outer loop `for i in range(n - 1)` (strategy.py line 31). -/
def bubbleOuterGo : ℕ → List α → ℕ → ℕ → List α
  | 0, a, _, _ => a
  | fuel + 1, a, i, n =>
    if i < n - 1 then
      bubbleOuterGo fuel (bubbleInnerGo (n - 1 - i) a 0 (n - 1 - i)) (i + 1) n
    else a

/-- `BubbleSortStrategy.sort(self, array)` (strategy.py lines 29-34). -/
def sort (a : List α) : List α :=
  bubbleOuterGo (a.length - 1) a 0 a.length

end BubbleSortStrategy

namespace MergeSortStrategy

variable {α : Type*} [Inhabited α]

/-- The first merge loop `while i < n1 and j < n2` (strategy.py lines 56-63),
which writes into `array[k]` with `k` starting at `0`; returns the updated
list together with the final `i`, `j`, `k`.  The comparison `L[i] <= R[j]`
is the parameter `le`, so that elements whose comparison ignores part of
their data (for stability tests) can be used as well. -/
def mergeLoop1 (le : α → α → Bool) (L R : List α) (n1 n2 : ℕ) :
    ℕ → List α → ℕ → ℕ → ℕ → List α × ℕ × ℕ × ℕ
  | 0, a, i, j, k => (a, i, j, k)
  | fuel + 1, a, i, j, k =>
    if i < n1 ∧ j < n2 then
      if le (L.getD i default) (R.getD j default) then
        mergeLoop1 le L R n1 n2 fuel (a.set k (L.getD i default)) (i + 1) j (k + 1)
      else
        mergeLoop1 le L R n1 n2 fuel (a.set k (R.getD j default)) i (j + 1) (k + 1)
    else (a, i, j, k)

/-- The drain loop `while i < n1` (strategy.py lines 65-68). -/
def mergeLoop2 (L : List α) (n1 : ℕ) : ℕ → List α → ℕ → ℕ → List α × ℕ × ℕ
  | 0, a, i, k => (a, i, k)
  | fuel + 1, a, i, k =>
    if i < n1 then mergeLoop2 L n1 fuel (a.set k (L.getD i default)) (i + 1) (k + 1)
    else (a, i, k)

/-- The drain loop `while j < n2` (strategy.py lines 70-73). -/
def mergeLoop3 (R : List α) (n2 : ℕ) : ℕ → List α → ℕ → ℕ → List α × ℕ × ℕ
  | 0, a, j, k => (a, j, k)
  | fuel + 1, a, j, k =>
    if j < n2 then mergeLoop3 R n2 fuel (a.set k (R.getD j default)) (j + 1) (k + 1)
    else (a, j, k)

/-- `merge(self, array, left, middle, right)` (strategy.py lines 47-73):
`L = array[left : left + n1]`, `R = array[middle + 1 : middle + 1 + n2]`
are the Python slices (which, like `take`/`drop`, clamp at the list's
length), `i = j = k = 0`, and the three while loops run in order.  Note the
source initialises `k = 0`, not `k = left`. -/
def merge (le : α → α → Bool) (a : List α) (left middle right : ℕ) : List α :=
  let n1 := middle - left + 1
  let n2 := right - middle
  let L := (a.drop left).take n1
  let R := (a.drop (middle + 1)).take n2
  let r1 := mergeLoop1 le L R n1 n2 (n1 + n2) a 0 0 0
  let r2 := mergeLoop2 L n1 n1 r1.1 r1.2.1 r1.2.2.2
  let r3 := mergeLoop3 R n2 n2 r2.1 r1.2.2.1 r2.2.2
  r3.1

/-- `merge_sort(self, array, left, right)` (strategy.py lines 40-45) with an
explicit recursion-depth counter; `right - left` is enough, and the
`if left < right` guard is what actually stops the recursion. -/
def mergeSortGo (le : α → α → Bool) : ℕ → List α → ℕ → ℕ → List α
  | 0, a, _, _ => a
  | fuel + 1, a, left, right =>
    if left < right then
      merge le
        (mergeSortGo le fuel
          (mergeSortGo le fuel a left ((left + right) / 2))
          ((left + right) / 2 + 1) right)
        left ((left + right) / 2) right
    else a

/-- `merge_sort` at its well-founded recursion depth. -/
def merge_sort (le : α → α → Bool) (a : List α) (left right : ℕ) : List α :=
  mergeSortGo le (right - left) a left right

/-- `MergeSortStrategy.sort(self, array)` (strategy.py lines 37-38):
`merge_sort(array, 0, len(array) - 1)`, for an arbitrary comparison `le`
standing for Python's `<=` on the elements. -/
def sort (le : α → α → Bool) (a : List α) : List α :=
  merge_sort le a 0 (a.length - 1)

/-- `MergeSortStrategy.sort` on elements of a linear order, where Python's
`<=` is the order's `≤`. -/
def sortL {β : Type*} [LinearOrder β] [Inhabited β] (a : List β) : List β :=
  sort (fun x y => decide (x ≤ y)) a

end MergeSortStrategy

/-- Comparison on key-tag pairs that Python's `<=` performs when the elements
are objects compared by their key alone: the tag (second component) is
ignored.  Used to state the stability claim. -/
def tagLe (x y : ℕ × ℕ) : Bool :=
  decide (x.1 ≤ y.1)

/-- The three concrete strategy classes that can be bound to a
`DataProcessor` in strategy.py's `main`. -/
inductive Strategy : Type
  | quickSortStrategy : Strategy
  | bubbleSortStrategy : Strategy
  | mergeSortStrategy : Strategy

/-- What `strategy.sort(data)` does to the data for each bound strategy
(elements are Python integers, modelled as `ℤ`). -/
def Strategy.apply : Strategy → List ℤ → List ℤ
  | .quickSortStrategy, d => QuickSortStrategy.sort d
  | .bubbleSortStrategy, d => BubbleSortStrategy.sort d
  | .mergeSortStrategy, d => MergeSortStrategy.sortL d

/-- `DataProcessor` (strategy.py lines 76-86): its whole state is the
currently bound strategy. -/
structure DataProcessor : Type where
  sort_strategy : Strategy

/-- `set_sort_strategy(self, sort_strategy)` (strategy.py lines 80-81). -/
def DataProcessor.set_sort_strategy (_ : DataProcessor) (s : Strategy) : DataProcessor :=
  { sort_strategy := s }

/-- `process_data(self, data)` (strategy.py lines 83-86): sorts with the bound
strategy and returns the resulting data; the processor state is unchanged.
The returned pair is (returned data, processor state after the call). -/
def DataProcessor.process_data (p : DataProcessor) (d : List ℤ) : List ℤ × DataProcessor :=
  (p.sort_strategy.apply d, p)

/-! ### Basic lemmas: lengths are preserved by every operation -/

theorem swapL_length {α : Type*} [Inhabited α] (a : List α) (i j : ℕ) :
    (swapL a i j).length = a.length := by
  simp [swapL]

namespace QuickSortStrategy

variable {α : Type*} [LinearOrder α] [Inhabited α]

theorem partitionGo_fst_length (pivot : α) :
    ∀ (fuel : ℕ) (a : List α) (iP j high : ℕ),
      (partitionGo pivot fuel a iP j high).1.length = a.length := by
  intro fuel
  induction fuel with
  | zero => intro a iP j high; simp [partitionGo, swapL_length]
  | succ f ih =>
    intro a iP j high
    simp only [partitionGo]
    split
    · split
      · rw [ih, swapL_length]
      · rw [ih]
    · simp [swapL_length]

theorem partition_fst_length (a : List α) (low high : ℕ) :
    (partition a low high).1.length = a.length := by
  simp [partition, partitionGo_fst_length]

theorem quickSortGo_length :
    ∀ (fuel : ℕ) (a : List α) (low high : ℕ),
      (quickSortGo fuel a low high).length = a.length := by
  intro fuel
  induction fuel with
  | zero => intro a low high; simp [quickSortGo]
  | succ f ih =>
    intro a low high
    simp only [quickSortGo]
    split
    · rw [ih, ih, partition_fst_length]
    · rfl

theorem quickSort_length (a : List α) : (sort a).length = a.length := by
  simp [sort, quick_sort, quickSortGo_length]

end QuickSortStrategy

namespace BubbleSortStrategy

variable {α : Type*} [LinearOrder α] [Inhabited α]

theorem bubbleInnerGo_length :
    ∀ (fuel : ℕ) (a : List α) (j m : ℕ),
      (bubbleInnerGo fuel a j m).length = a.length := by
  intro fuel
  induction fuel with
  | zero => intro a j m; rfl
  | succ f ih =>
    intro a j m
    simp only [bubbleInnerGo]
    split
    · rw [ih]; split <;> simp [swapL_length]
    · rfl

theorem bubbleOuterGo_length :
    ∀ (fuel : ℕ) (a : List α) (i n : ℕ),
      (bubbleOuterGo fuel a i n).length = a.length := by
  intro fuel
  induction fuel with
  | zero => intro a i n; rfl
  | succ f ih =>
    intro a i n
    simp only [bubbleOuterGo]
    split
    · rw [ih, bubbleInnerGo_length]
    · rfl

theorem bubbleSort_length (a : List α) : (sort a).length = a.length := by
  simp [sort, bubbleOuterGo_length]

end BubbleSortStrategy

namespace MergeSortStrategy

variable {α : Type*} [Inhabited α]

theorem mergeLoop1_fst_length (le : α → α → Bool) (L R : List α) (n1 n2 : ℕ) :
    ∀ (fuel : ℕ) (a : List α) (i j k : ℕ),
      (mergeLoop1 le L R n1 n2 fuel a i j k).1.length = a.length := by
  intro fuel
  induction fuel with
  | zero => intro a i j k; rfl
  | succ f ih =>
    intro a i j k
    simp only [mergeLoop1]
    split
    · split <;> rw [ih, List.length_set]
    · rfl

theorem mergeLoop2_fst_length (L : List α) (n1 : ℕ) :
    ∀ (fuel : ℕ) (a : List α) (i k : ℕ),
      (mergeLoop2 L n1 fuel a i k).1.length = a.length := by
  intro fuel
  induction fuel with
  | zero => intro a i k; rfl
  | succ f ih =>
    intro a i k
    simp only [mergeLoop2]
    split
    · rw [ih, List.length_set]
    · rfl

theorem mergeLoop3_fst_length (R : List α) (n2 : ℕ) :
    ∀ (fuel : ℕ) (a : List α) (j k : ℕ),
      (mergeLoop3 R n2 fuel a j k).1.length = a.length := by
  intro fuel
  induction fuel with
  | zero => intro a j k; rfl
  | succ f ih =>
    intro a j k
    simp only [mergeLoop3]
    split
    · rw [ih, List.length_set]
    · rfl

theorem merge_length (le : α → α → Bool) (a : List α) (left middle right : ℕ) :
    (merge le a left middle right).length = a.length := by
  simp [merge, mergeLoop3_fst_length, mergeLoop2_fst_length, mergeLoop1_fst_length]

theorem mergeSortGo_length (le : α → α → Bool) :
    ∀ (fuel : ℕ) (a : List α) (left right : ℕ),
      (mergeSortGo le fuel a left right).length = a.length := by
  intro fuel
  induction fuel with
  | zero => intro a left right; rfl
  | succ f ih =>
    intro a left right
    simp only [mergeSortGo]
    split
    · rw [merge_length, ih, ih]
    · rfl

theorem mergeSort_le_length (le : α → α → Bool) (a : List α) : (sort le a).length = a.length := by
  simp [sort, merge_sort, mergeSortGo_length]

theorem sortL_length {β : Type*} [LinearOrder β] [Inhabited β] (a : List β) :
    (sortL a).length = a.length :=
  mergeSort_le_length _ a

end MergeSortStrategy

/-! ### Partition bounds and termination of quick_sort -/

namespace QuickSortStrategy

variable {α : Type*} [LinearOrder α] [Inhabited α]

theorem partitionGo_snd_ge (pivot : α) :
    ∀ (fuel : ℕ) (a : List α) (iP j high : ℕ),
      iP ≤ (partitionGo pivot fuel a iP j high).2 := by
  intro fuel
  induction fuel with
  | zero => intro a iP j high; exact le_refl _
  | succ f ih =>
    intro a iP j high
    simp only [partitionGo]
    split
    · split
      · exact le_trans (Nat.le_succ iP) (ih _ _ _ _)
      · exact ih _ _ _ _
    · exact le_refl _

theorem partitionGo_snd_le (pivot : α) :
    ∀ (fuel : ℕ) (a : List α) (iP j high : ℕ),
      iP ≤ j → (partitionGo pivot fuel a iP j high).2 ≤ max j high := by
  intro fuel
  induction fuel with
  | zero => intro a iP j high h; exact le_trans h (le_max_left _ _)
  | succ f ih =>
    intro a iP j high h
    simp only [partitionGo]
    split
    · rename_i hj
      have hmax : max (j + 1) high = max j high := by omega
      split
      · rw [← hmax]; exact ih _ _ _ _ (by omega)
      · rw [← hmax]; exact ih _ _ _ _ (by omega)
    · exact le_trans h (le_max_left _ _)

theorem partition_snd_ge (a : List α) (low high : ℕ) :
    low ≤ (partition a low high).2 :=
  partitionGo_snd_ge _ _ _ _ _ _

theorem partition_snd_le (a : List α) (low high : ℕ) (h : low ≤ high) :
    (partition a low high).2 ≤ high := by
  have := partitionGo_snd_le (a.getD high default) (high - low) a low low high (le_refl _)
  rw [max_eq_right h] at this
  exact this

theorem quickSortGo_of_not_lt (fuel : ℕ) (a : List α) (low high : ℕ)
    (h : ¬ low < high) : quickSortGo fuel a low high = a := by
  cases fuel <;> simp [quickSortGo, h]

theorem quickSortGo_fuel_stable :
    ∀ (fuel : ℕ) (a : List α) (low high : ℕ),
      high + 1 - low ≤ fuel → quickSortGo fuel a low high = quick_sort a low high := by
  intro fuel
  induction fuel using Nat.strong_induction_on with
  | _ fuel ih =>
    intro a low high hf
    by_cases hlh : low < high
    · have hb1 := partition_snd_ge a low high
      have hb2 := partition_snd_le a low high (le_of_lt hlh)
      obtain ⟨f, rfl⟩ : ∃ f, fuel = f + 1 := ⟨fuel - 1, by omega⟩
      have hk : high + 1 - low = (high - low) + 1 := by omega
      rw [quick_sort, hk]
      simp only [quickSortGo, if_pos hlh]
      have e1 := ih f (by omega) (partition a low high).1 low
        ((partition a low high).2 - 1) (by omega)
      have e2 := ih (high - low) (by omega) (partition a low high).1 low
        ((partition a low high).2 - 1) (by omega)
      rw [e1, e2]
      have e3 := ih f (by omega)
        (quick_sort (partition a low high).1 low ((partition a low high).2 - 1))
        ((partition a low high).2 + 1) high (by omega)
      have e4 := ih (high - low) (by omega)
        (quick_sort (partition a low high).1 low ((partition a low high).2 - 1))
        ((partition a low high).2 + 1) high (by omega)
      rw [e3, e4]
    · rw [quickSortGo_of_not_lt _ _ _ _ hlh, quick_sort,
          quickSortGo_of_not_lt _ _ _ _ hlh]

end QuickSortStrategy

/-! ### Claim theorems settled by evaluation, and the DataProcessor claims -/

/-- C1: on the literal demo input `[5, 2, 9, 1, 5, 6]`, QuickSort and
BubbleSort do produce `[1, 2, 5, 5, 6, 9]`, but MergeSort produces
`[1, 1, 5, 5, 6, 6]`: the merge step writes the merged run to the front of
the list (`k` starts at `0` instead of `left`), so the claim fails for the
MergeSort case. -/
theorem mainScenario_eval :
    QuickSortStrategy.sort ([5, 2, 9, 1, 5, 6] : List ℤ) = [1, 2, 5, 5, 6, 9] ∧
    BubbleSortStrategy.sort ([5, 2, 9, 1, 5, 6] : List ℤ) = [1, 2, 5, 5, 6, 9] ∧
    MergeSortStrategy.sortL ([5, 2, 9, 1, 5, 6] : List ℤ) = [1, 1, 5, 5, 6, 6] := by
  refine ⟨by decide, by decide, by decide⟩

/-- C2: MergeSortStrategy.sort does not return a permutation of its input on
the demo input `[5, 2, 9, 1, 5, 6]`: the elements 2 and 9 are lost and 1 and
6 are duplicated, because the merge step writes to the front of the list. -/
theorem mergeSort_not_perm :
    MergeSortStrategy.sortL ([5, 2, 9, 1, 5, 6] : List ℤ) = [1, 1, 5, 5, 6, 6] ∧
    ¬ (MergeSortStrategy.sortL ([5, 2, 9, 1, 5, 6] : List ℤ)).Perm [5, 2, 9, 1, 5, 6] := by
  refine ⟨by decide, by decide⟩

/-- C3: the merge step does not write the merged result back into
`seq[left..right]`: for the sequence `[9, 1, 2]` and the valid triple
`left = 1, middle = 1, right = 2` it writes the merged run `[1, 2]` at
positions 0 and 1, so position 0 (outside `[left, right]`) changes from 9
to 1, and position 2 keeps its old value instead of receiving the merged
result. -/
theorem merge_clobbers_outside :
    MergeSortStrategy.merge (fun x y : ℤ => decide (x ≤ y)) [9, 1, 2] 1 1 2 = [1, 2, 2] ∧
    (MergeSortStrategy.merge (fun x y : ℤ => decide (x ≤ y)) [9, 1, 2] 1 1 2).getD 0 0 ≠
      ([9, 1, 2] : List ℤ).getD 0 0 := by
  refine ⟨by decide, by decide⟩

/-- C4: MergeSortStrategy.sort is not stable.  On the input
`[(5,0), (5,1), (5,2), (5,3)]` of key-tag pairs whose keys are all equal
(so `tagLe` reports every comparison as a tie), a stable sort must return
the input unchanged, but the code returns `[(5,2), (5,3), (5,2), (5,3)]`:
tags 0 and 1 disappear and the pair tagged 3 ends up both before and after a
pair tagged 2. -/
theorem mergeSort_not_stable :
    MergeSortStrategy.sort tagLe [(5, 0), (5, 1), (5, 2), (5, 3)] =
      [(5, 2), (5, 3), (5, 2), (5, 3)] ∧
    MergeSortStrategy.sort tagLe [(5, 0), (5, 1), (5, 2), (5, 3)] ≠
      [(5, 0), (5, 1), (5, 2), (5, 3)] := by
  refine ⟨by decide, by decide⟩

/-- C7: sorting the already-sorted sequence `[1, 2, 3, 4]` with
MergeSortStrategy does not leave it unchanged: the result is
`[3, 3, 4, 4]`, again because the merge step writes to the front. -/
theorem mergeSort_not_identity_on_sorted :
    List.Sorted (· ≤ ·) ([1, 2, 3, 4] : List ℤ) ∧
    MergeSortStrategy.sortL ([1, 2, 3, 4] : List ℤ) = [3, 3, 4, 4] ∧
    MergeSortStrategy.sortL ([1, 2, 3, 4] : List ℤ) ≠ [1, 2, 3, 4] := by
  refine ⟨by decide, by decide, by decide⟩

/-- C8: none of the three strategies changes the length of the sequence
(the buggy merge writes within bounds, so even MergeSort preserves
length). -/
theorem strategies_preserve_length {α : Type*} [LinearOrder α] [Inhabited α] (a : List α) :
    (QuickSortStrategy.sort a).length = a.length ∧
    (BubbleSortStrategy.sort a).length = a.length ∧
    (MergeSortStrategy.sortL a).length = a.length :=
  ⟨QuickSortStrategy.quickSort_length a, BubbleSortStrategy.bubbleSort_length a,
    MergeSortStrategy.sortL_length a⟩

/-- C9: `set_sort_strategy` always succeeds and its only effect is to replace
the bound strategy; `process_data` applies exactly the currently bound
strategy's sort to the data, returns that sorted sequence, and leaves the
bound strategy unchanged. -/
theorem dataProcessor_spec (p : DataProcessor) (s : Strategy) (d : List ℤ) :
    (p.set_sort_strategy s).sort_strategy = s ∧
    (p.set_sort_strategy s).process_data d =
      (s.apply d, p.set_sort_strategy s) ∧
    p.process_data d = (p.sort_strategy.apply d, p) :=
  ⟨rfl, rfl, rfl⟩

/-- C10: quick_sort terminates on every sequence and every index range: for
`low ≤ high` the partition index `pi` satisfies `low ≤ pi ≤ high`, so the two
recursive calls are on the strictly smaller ranges `[low, pi-1]` and
`[pi+1, high]`, and any iteration budget of at least `high + 1 - low` (the
well-founded measure of the range) yields the same result as `quick_sort`
itself. -/
theorem quick_sort_terminates {α : Type*} [LinearOrder α] [Inhabited α]
    (a : List α) (low high fuel : ℕ) (h1 : low ≤ high)
    (h2 : high + 1 - low ≤ fuel) :
    low ≤ (QuickSortStrategy.partition a low high).2 ∧
    (QuickSortStrategy.partition a low high).2 ≤ high ∧
    QuickSortStrategy.quickSortGo fuel a low high =
      QuickSortStrategy.quick_sort a low high :=
  ⟨QuickSortStrategy.partition_snd_ge a low high,
    QuickSortStrategy.partition_snd_le a low high h1,
    QuickSortStrategy.quickSortGo_fuel_stable fuel a low high h2⟩

/-- Witness for C10 at the concrete input `[3, 1, 2]`, range `[0, 2]`, with
iteration budget 9. -/
theorem quick_sort_terminates_witness :
    0 ≤ (QuickSortStrategy.partition ([3, 1, 2] : List ℤ) 0 2).2 ∧
    (QuickSortStrategy.partition ([3, 1, 2] : List ℤ) 0 2).2 ≤ 2 ∧
    QuickSortStrategy.quickSortGo 9 ([3, 1, 2] : List ℤ) 0 2 =
      QuickSortStrategy.quick_sort ([3, 1, 2] : List ℤ) 0 2 :=
  quick_sort_terminates [3, 1, 2] 0 2 9 (by decide) (by decide)

/-! ### Decomposition lemmas for reads, writes and swaps at a known position -/

theorem getD_at_append {α : Type*} [Inhabited α] (L : List α) (x : α) (R : List α)
    (i : ℕ) (hi : i = L.length) :
    (L ++ x :: R).getD i default = x := by
  subst hi
  rw [List.getD_append_right _ _ _ _ (le_refl _)]
  simp

theorem set_at_append {α : Type*} (L : List α) (x v : α) (R : List α)
    (i : ℕ) (hi : i = L.length) :
    (L ++ x :: R).set i v = L ++ v :: R := by
  subst hi
  rw [List.set_append]
  simp

theorem swapL_at_append {α : Type*} [Inhabited α] (L M R : List α) (b c : α)
    (i j : ℕ) (hi : i = L.length) (hj : j = L.length + 1 + M.length) :
    swapL (L ++ b :: (M ++ c :: R)) i j = L ++ c :: (M ++ b :: R) := by
  have hgj : (L ++ b :: (M ++ c :: R)).getD j default = c := by
    have h := getD_at_append (L ++ b :: M) c R j (by simp [hj]; omega)
    simpa only [List.append_assoc, List.cons_append] using h
  have hgi : (L ++ b :: (M ++ c :: R)).getD i default = b :=
    getD_at_append L b (M ++ c :: R) i hi
  have hs1 : (L ++ b :: (M ++ c :: R)).set i c = L ++ c :: (M ++ c :: R) :=
    set_at_append L b c (M ++ c :: R) i hi
  have hs2 : (L ++ c :: (M ++ c :: R)).set j b = L ++ c :: (M ++ b :: R) := by
    have h := set_at_append (L ++ c :: M) c b R j (by simp [hj]; omega)
    simpa only [List.append_assoc, List.cons_append] using h
  unfold swapL
  rw [hgj, hgi, hs1, hs2]

theorem swapL_at_self {α : Type*} [Inhabited α] (L : List α) (x : α) (R : List α)
    (i j : ℕ) (hi : i = L.length) (hj : j = L.length) :
    swapL (L ++ x :: R) i j = L ++ x :: R := by
  subst hi; subst hj
  unfold swapL
  rw [getD_at_append L x R _ rfl]
  rw [set_at_append L x x R _ rfl]
  rw [set_at_append L x x R _ rfl]

/-! ### The partition loop, specified on a decomposed list -/

theorem forall_mem_append_singleton {α : Type*} {p : α → Prop} {A : List α} {x : α}
    (hA : ∀ y ∈ A, p y) (hx : p x) : ∀ y ∈ A ++ [x], p y := by
  intro y hy
  rcases List.mem_append.1 hy with h | h
  · exact hA y h
  · rw [List.mem_singleton] at h
    subst h
    exact hx

theorem forall_mem_rotate {α : Type*} {p : α → Prop} {b : α} {M : List α}
    (hB : ∀ y ∈ b :: M, p y) : ∀ y ∈ M ++ [b], p y := by
  intro y hy
  rcases List.mem_append.1 hy with h | h
  · exact hB y (List.mem_cons_of_mem b h)
  · rw [List.mem_singleton] at h
    subst h
    exact hB y (List.mem_cons_self y M)

namespace QuickSortStrategy

variable {α : Type*} [LinearOrder α] [Inhabited α]

theorem partitionGo_exit (pivot : α) (fuel : ℕ) (a : List α) (iP j high : ℕ)
    (h : ¬ j < high) :
    partitionGo pivot fuel a iP j high = (swapL a iP high, iP) := by
  cases fuel <;> simp [partitionGo, h]

/-- Running the partition loop on `P ++ A ++ B ++ C ++ pivot :: T`, where `A`
is the already-built block of elements below the pivot, `B` the block of
elements not below it, and `C` the elements still to scan, rearranges the
scanned region into blocks `U` (below the pivot) and `V` (not below),
separated by the pivot, and returns the pivot's position. -/
theorem partitionGo_spec (pivot : α) (T : List α) :
    ∀ (C : List α) (fuel : ℕ) (A B P a : List α) (iP j high : ℕ),
      a = P ++ (A ++ (B ++ (C ++ pivot :: T))) →
      iP = P.length + A.length →
      j = iP + B.length →
      high = j + C.length →
      C.length ≤ fuel →
      (∀ x ∈ A, x < pivot) →
      (∀ x ∈ B, ¬ x < pivot) →
      ∃ U V : List α,
        partitionGo pivot fuel a iP j high =
          (P ++ (U ++ (pivot :: (V ++ T))), P.length + U.length) ∧
        (U ++ V).Perm (A ++ (B ++ C)) ∧
        (∀ x ∈ U, x < pivot) ∧ (∀ x ∈ V, ¬ x < pivot) := by
  intro C
  induction C with
  | nil =>
    intro fuel A B P a iP j high ha hiP hj hhigh hfC hA hB
    simp only [List.length_nil, Nat.add_zero] at hhigh
    have hexit := partitionGo_exit pivot fuel a iP j high (by omega)
    cases B with
    | nil =>
      simp only [List.length_nil, Nat.add_zero] at hj
      refine ⟨A, [], ?_, by simp, hA, by simp⟩
      have hswap : swapL a iP high = P ++ (A ++ (pivot :: ([] ++ T))) := by
        rw [ha]
        have h := swapL_at_self (P ++ A) pivot T iP high
          (by simp only [List.length_append]; omega)
          (by simp only [List.length_append]; omega)
        simpa only [List.append_assoc, List.cons_append, List.nil_append,
          List.append_nil] using h
      rw [hexit, hswap, hiP]
    | cons b M =>
      simp only [List.length_cons] at hj
      refine ⟨A, M ++ [b], ?_, ?_, hA, forall_mem_rotate hB⟩
      · have hswap : swapL a iP high = P ++ (A ++ (pivot :: ((M ++ [b]) ++ T))) := by
          rw [ha]
          have h := swapL_at_append (P ++ A) M T b pivot iP high
            (by simp only [List.length_append]; omega)
            (by simp only [List.length_append]; omega)
          simpa only [List.append_assoc, List.cons_append, List.nil_append,
            List.append_nil] using h
        rw [hexit, hswap, hiP]
      · simp only [List.append_nil]
        exact List.Perm.append_left A (List.perm_append_singleton b M)
  | cons x C' ih =>
    intro fuel A B P a iP j high ha hiP hj hhigh hfC hA hB
    simp only [List.length_cons] at hfC hhigh
    obtain ⟨f, rfl⟩ : ∃ f, fuel = f + 1 := ⟨fuel - 1, by omega⟩
    have hjh : j < high := by omega
    have hgd : a.getD j default = x := by
      rw [ha]
      have h := getD_at_append (P ++ (A ++ B)) x (C' ++ pivot :: T) j
        (by simp only [List.length_append]; omega)
      simpa only [List.append_assoc, List.cons_append] using h
    by_cases hx : x < pivot
    · have hstep : partitionGo pivot (f + 1) a iP j high =
          partitionGo pivot f (swapL a iP j) (iP + 1) (j + 1) high := by
        simp only [partitionGo]
        rw [if_pos hjh, hgd, if_pos hx]
      cases B with
      | nil =>
        simp only [List.length_nil, Nat.add_zero] at hj
        have hswap : swapL a iP j =
            P ++ ((A ++ [x]) ++ ([] ++ (C' ++ pivot :: T))) := by
          rw [ha]
          have h := swapL_at_self (P ++ A) x (C' ++ pivot :: T) iP j
            (by simp only [List.length_append]; omega)
            (by simp only [List.length_append]; omega)
          simpa only [List.append_assoc, List.cons_append, List.nil_append,
            List.append_nil, List.singleton_append] using h
        obtain ⟨U, V, hrun, hperm, hU, hV⟩ := ih f (A ++ [x]) [] P
          (swapL a iP j) (iP + 1) (j + 1) high hswap
          (by simp only [List.length_append, List.length_singleton]; omega)
          (by simp only [List.length_nil]; omega)
          (by omega) (by omega)
          (forall_mem_append_singleton hA hx)
          (by simp)
        refine ⟨U, V, by rw [hstep, hrun], ?_, hU, hV⟩
        refine hperm.trans ?_
        simp only [List.append_assoc, List.singleton_append, List.nil_append,
          List.cons_append]
        exact List.Perm.refl _
      | cons b M =>
        simp only [List.length_cons] at hj
        have hswap : swapL a iP j =
            P ++ ((A ++ [x]) ++ ((M ++ [b]) ++ (C' ++ pivot :: T))) := by
          rw [ha]
          have h := swapL_at_append (P ++ A) M (C' ++ pivot :: T) b x iP j
            (by simp only [List.length_append]; omega)
            (by simp only [List.length_append]; omega)
          simpa only [List.append_assoc, List.cons_append, List.nil_append,
            List.append_nil, List.singleton_append] using h
        obtain ⟨U, V, hrun, hperm, hU, hV⟩ := ih f (A ++ [x]) (M ++ [b]) P
          (swapL a iP j) (iP + 1) (j + 1) high hswap
          (by simp only [List.length_append, List.length_singleton]; omega)
          (by simp only [List.length_append, List.length_singleton]; omega)
          (by omega) (by omega)
          (forall_mem_append_singleton hA hx)
          (forall_mem_rotate hB)
        refine ⟨U, V, by rw [hstep, hrun], ?_, hU, hV⟩
        refine hperm.trans ?_
        simp only [List.append_assoc, List.singleton_append, List.nil_append,
          List.cons_append]
        refine List.Perm.append_left A ?_
        have p1 : (M ++ b :: C').Perm (b :: (M ++ C')) := List.perm_middle
        have p2 : (M ++ x :: C').Perm (x :: (M ++ C')) := List.perm_middle
        exact List.Perm.trans (p1.cons x)
          (List.Perm.trans (List.Perm.swap b x (M ++ C')) (p2.cons b).symm)
    · have hstep : partitionGo pivot (f + 1) a iP j high =
          partitionGo pivot f a iP (j + 1) high := by
        simp only [partitionGo]
        rw [if_pos hjh, hgd, if_neg hx]
      have ha' : a = P ++ (A ++ ((B ++ [x]) ++ (C' ++ pivot :: T))) := by
        rw [ha]
        simp only [List.append_assoc, List.cons_append, List.singleton_append,
          List.nil_append]
      obtain ⟨U, V, hrun, hperm, hU, hV⟩ := ih f A (B ++ [x]) P a iP (j + 1) high
        ha' hiP
        (by simp only [List.length_append, List.length_singleton]; omega)
        (by omega) (by omega) hA
        (forall_mem_append_singleton hB hx)
      refine ⟨U, V, by rw [hstep, hrun], ?_, hU, hV⟩
      refine hperm.trans ?_
      simp only [List.append_assoc, List.singleton_append, List.cons_append]
      exact List.Perm.refl _

end QuickSortStrategy

namespace QuickSortStrategy

variable {α : Type*} [LinearOrder α] [Inhabited α]

/-- What `partition a low high` does on an in-bounds range: the scanned region
`a[low..high-1]` splits into a block `U` of elements below the pivot
`a[high]` and a block `V` of the others, with the pivot placed between them
at position `low + U.length`, and everything outside `[low, high]`
untouched. -/
theorem partition_spec (a : List α) (low high : ℕ)
    (hlh : low ≤ high) (hh : high < a.length) :
    ∃ U V : List α,
      partition a low high =
        (a.take low ++ (U ++ (a.getD high default :: (V ++ a.drop (high + 1)))),
          low + U.length) ∧
      (U ++ V).Perm ((a.drop low).take (high - low)) ∧
      (∀ x ∈ U, x < a.getD high default) ∧
      (∀ x ∈ V, ¬ x < a.getD high default) := by
  have hP : (a.take low).length = low := by
    rw [List.length_take]
    omega
  have hC : ((a.drop low).take (high - low)).length = high - low := by
    rw [List.length_take, List.length_drop]
    omega
  have hdropHigh : a.drop high = a.getD high default :: a.drop (high + 1) := by
    rw [List.drop_eq_getElem_cons hh, List.getD_eq_getElem a default hh]
  have ha : a = a.take low ++
      ([] ++ ([] ++ ((a.drop low).take (high - low) ++
        a.getD high default :: a.drop (high + 1)))) := by
    simp only [List.nil_append]
    rw [← hdropHigh]
    have h2 : (a.drop low).take (high - low) ++ a.drop high = a.drop low := by
      have h3 : (a.drop low).drop (high - low) = a.drop high := by
        rw [List.drop_drop]
        congr 1
        omega
      rw [← h3]
      exact List.take_append_drop _ _
    rw [h2, List.take_append_drop]
  obtain ⟨U, V, hrun, hperm, hU, hV⟩ :=
    partitionGo_spec (a.getD high default) (a.drop (high + 1))
      ((a.drop low).take (high - low)) (high - low) [] [] (a.take low) a
      low low high ha (by simp [hP]) (by simp) (by omega) (by omega)
      (by simp) (by simp)
  refine ⟨U, V, ?_, by simpa using hperm, hU, hV⟩
  show partitionGo (a.getD high default) (high - low) a low low high = _
  rw [hrun, hP]

end QuickSortStrategy

namespace QuickSortStrategy

variable {α : Type*} [LinearOrder α] [Inhabited α]

/-- Main invariant of `quick_sort` on an in-bounds range `[low, high]` with
enough iteration budget: the range is replaced by a sorted permutation of
itself and nothing outside it changes. -/
theorem quickSortGo_spec :
    ∀ (fuel : ℕ) (a : List α) (low high : ℕ),
      low ≤ high + 1 → high < a.length → high + 1 - low ≤ fuel →
      ∃ S : List α,
        quickSortGo fuel a low high = a.take low ++ (S ++ a.drop (high + 1)) ∧
        S.Perm ((a.drop low).take (high + 1 - low)) ∧
        S.Sorted (· ≤ ·) := by
  intro fuel
  induction fuel with
  | zero =>
    intro a low high h1 h2 h3
    obtain rfl : low = high + 1 := by omega
    refine ⟨[], ?_, by simp, List.sorted_nil⟩
    simp only [quickSortGo, List.nil_append]
    exact (List.take_append_drop _ _).symm
  | succ f ih =>
    intro a low high h1 h2 h3
    by_cases hlh : low < high
    · obtain ⟨U, V, hpart, hperm, hU, hV⟩ := partition_spec a low high (le_of_lt hlh) h2
      have hb : (partition a low high).1 =
          a.take low ++ (U ++ (a.getD high default :: (V ++ a.drop (high + 1)))) := by
        rw [hpart]
      have hpi : (partition a low high).2 = low + U.length := by rw [hpart]
      have hUV : U.length + V.length = high - low := by
        have hl := hperm.length_eq
        simp only [List.length_append, List.length_take, List.length_drop] at hl
        omega
      have hplen : (a.take low).length = low := by rw [List.length_take]; omega
      simp only [quickSortGo]
      rw [if_pos hlh, hb, hpi]
      have hcall1 : ∃ S1 : List α,
          quickSortGo f
              (a.take low ++ (U ++ (a.getD high default :: (V ++ a.drop (high + 1)))))
              low (low + U.length - 1) =
            a.take low ++ (S1 ++ (a.getD high default :: (V ++ a.drop (high + 1)))) ∧
          S1.Perm U ∧ S1.Sorted (· ≤ ·) := by
        by_cases hz : low + U.length = 0
        · have hU0 : U = [] := List.length_eq_zero.1 (by omega)
          subst hU0
          obtain rfl : low = 0 := by omega
          refine ⟨[], ?_, List.Perm.refl [], List.sorted_nil⟩
          rw [quickSortGo_of_not_lt f _ _ _ (by omega)]
        · obtain ⟨S1, heq1, hp1, hs1⟩ := ih
            (a.take low ++ (U ++ (a.getD high default :: (V ++ a.drop (high + 1)))))
            low (low + U.length - 1)
            (by omega)
            (by simp only [List.length_append, List.length_cons, List.length_take,
                  List.length_drop]
                omega)
            (by omega)
          have hsub : low + U.length - 1 + 1 = low + U.length := by omega
          rw [hsub] at heq1 hp1
          have e_take : (a.take low ++
              (U ++ (a.getD high default :: (V ++ a.drop (high + 1))))).take low =
                a.take low := List.take_left' hplen
          have e_drop_low : (a.take low ++
              (U ++ (a.getD high default :: (V ++ a.drop (high + 1))))).drop low =
                U ++ (a.getD high default :: (V ++ a.drop (high + 1))) :=
            List.drop_left' hplen
          have e_drop_pi : (a.take low ++
              (U ++ (a.getD high default :: (V ++ a.drop (high + 1))))).drop
                (low + U.length) =
                a.getD high default :: (V ++ a.drop (high + 1)) := by
            have h := @List.drop_left' α (a.take low ++ U)
              (a.getD high default :: (V ++ a.drop (high + 1)))
              (low + U.length) (by rw [List.length_append, hplen])
            simpa only [List.append_assoc] using h
          rw [e_take, e_drop_pi] at heq1
          have harg1 : low + U.length - low = U.length := by omega
          rw [e_drop_low, harg1, List.take_left' rfl] at hp1
          exact ⟨S1, heq1, hp1, hs1⟩
      obtain ⟨S1, heq1, hp1, hs1⟩ := hcall1
      rw [heq1]
      have hS1len : S1.length = U.length := hp1.length_eq
      have hc2 : a.take low ++ (S1 ++ (a.getD high default :: (V ++ a.drop (high + 1)))) =
          (a.take low ++ (S1 ++ [a.getD high default])) ++ (V ++ a.drop (high + 1)) := by
        simp only [List.append_assoc, List.singleton_append, List.cons_append,
          List.nil_append]
      obtain ⟨S2, heq2, hp2, hs2⟩ := ih
        (a.take low ++ (S1 ++ (a.getD high default :: (V ++ a.drop (high + 1)))))
        (low + U.length + 1) high
        (by omega)
        (by simp only [List.length_append, List.length_cons, List.length_take,
              List.length_drop]
            omega)
        (by omega)
      have e2_take : (a.take low ++
          (S1 ++ (a.getD high default :: (V ++ a.drop (high + 1))))).take
            (low + U.length + 1) =
            a.take low ++ (S1 ++ [a.getD high default]) := by
        rw [hc2]
        exact List.take_left'
          (by simp only [List.length_append, List.length_singleton, hplen, hS1len]
              omega)
      have e2_drop : (a.take low ++
          (S1 ++ (a.getD high default :: (V ++ a.drop (high + 1))))).drop
            (low + U.length + 1) = V ++ a.drop (high + 1) := by
        rw [hc2]
        exact List.drop_left'
          (by simp only [List.length_append, List.length_singleton, hplen, hS1len]
              omega)
      have e2_dropH : (a.take low ++
          (S1 ++ (a.getD high default :: (V ++ a.drop (high + 1))))).drop
            (high + 1) = a.drop (high + 1) := by
        have h := @List.drop_left' α
          (a.take low ++ (S1 ++ (a.getD high default :: V)))
          (a.drop (high + 1)) (high + 1)
          (by simp only [List.length_append, List.length_cons, hplen, hS1len]
              omega)
        simpa only [List.append_assoc, List.cons_append] using h
      rw [e2_take, e2_dropH] at heq2
      rw [e2_drop] at hp2
      have harg : high + 1 - (low + U.length + 1) = V.length := by omega
      rw [harg, List.take_left' rfl] at hp2
      refine ⟨S1 ++ (a.getD high default :: S2), ?_, ?_, ?_⟩
      · rw [heq2]
        simp only [List.append_assoc, List.singleton_append, List.cons_append,
          List.nil_append]
      · have htake : (a.drop low).take (high + 1 - low) =
            (a.drop low).take (high - low) ++ [a.getD high default] := by
          have h5 : high + 1 - low = (high - low) + 1 := by omega
          rw [h5, List.take_succ]
          congr 1
          rw [List.getElem?_drop]
          have h6 : low + (high - low) = high := by omega
          rw [h6, List.getElem?_eq_getElem h2, List.getD_eq_getElem a default h2]
          rfl
        rw [htake]
        refine List.Perm.trans (List.Perm.append hp1 (hp2.cons (a.getD high default))) ?_
        refine List.Perm.trans List.perm_middle ?_
        refine List.Perm.trans (hperm.cons (a.getD high default)) ?_
        exact (List.perm_append_singleton _ _).symm
      · have hcons : (a.getD high default :: S2).Sorted (· ≤ ·) := by
          rw [List.sorted_cons]
          refine ⟨?_, hs2⟩
          intro y hy
          exact le_of_not_lt (hV y (hp2.mem_iff.1 hy))
        refine List.pairwise_append.2 ⟨hs1, hcons, ?_⟩
        intro x hx y hy
        have hxU : x < a.getD high default := hU x (hp1.mem_iff.1 hx)
        rcases List.mem_cons.1 hy with h | h
        · rw [h]; exact le_of_lt hxU
        · exact le_trans (le_of_lt hxU)
            (le_of_not_lt (hV y (hp2.mem_iff.1 h)))
    · have hq : quickSortGo (f + 1) a low high = a :=
        quickSortGo_of_not_lt _ _ _ _ hlh
      by_cases heq : low = high + 1
      · subst heq
        refine ⟨[], ?_, by simp, List.sorted_nil⟩
        rw [hq]
        simp only [List.nil_append]
        exact (List.take_append_drop _ _).symm
      · obtain rfl : low = high := by omega
        have hdropHigh : a.drop low = a.getD low default :: a.drop (low + 1) := by
          rw [List.drop_eq_getElem_cons h2, List.getD_eq_getElem a default h2]
        refine ⟨[a.getD low default], ?_, ?_, List.sorted_singleton _⟩
        · rw [hq]
          rw [List.singleton_append, ← hdropHigh, List.take_append_drop]
        · rw [hdropHigh]
          have h7 : low + 1 - low = 1 := by omega
          rw [h7]
          simp

end QuickSortStrategy

/-- C5: for every finite sequence over a linear order, QuickSortStrategy.sort
returns a permutation of its input in non-decreasing order. -/
theorem quickSort_correct {α : Type*} [LinearOrder α] [Inhabited α] (a : List α) :
    (QuickSortStrategy.sort a).Perm a ∧
    (QuickSortStrategy.sort a).Sorted (· ≤ ·) := by
  by_cases ha : a = []
  · subst ha
    have h0 : QuickSortStrategy.sort ([] : List α) = [] := rfl
    rw [h0]
    exact ⟨List.Perm.refl [], List.sorted_nil⟩
  · have hlen : 0 < a.length := List.length_pos.2 ha
    obtain ⟨S, hEq, hPerm, hSort⟩ := QuickSortStrategy.quickSortGo_spec (a.length - 1 + 1 - 0) a 0
      (a.length - 1) (by omega) (by omega) (le_refl _)
    have hs : QuickSortStrategy.sort a = S := by
      show QuickSortStrategy.quickSortGo (a.length - 1 + 1 - 0) a 0 (a.length - 1) = S
      rw [hEq]
      have hl : a.length - 1 + 1 = a.length := by omega
      rw [hl, List.drop_length]
      simp
    rw [hs]
    have htk : (a.drop 0).take (a.length - 1 + 1 - 0) = a := by
      have hl : a.length - 1 + 1 - 0 = a.length := by omega
      rw [hl, List.drop_zero, List.take_length]
    rw [htk] at hPerm
    exact ⟨hPerm, hSort⟩

/-! ### Bubble sort: one bounded pass moves the maximum of the window to its end -/

namespace BubbleSortStrategy

variable {α : Type*} [LinearOrder α] [Inhabited α]

theorem bubbleInnerGo_exit (fuel : ℕ) (a : List α) (j m : ℕ) (h : ¬ j < m) :
    bubbleInnerGo fuel a j m = a := by
  cases fuel <;> simp [bubbleInnerGo, h]

/-- One pass of the inner loop over the window `W` (positions `j..m`), the
prefix `P` (positions below `j`) and the tail `T` (positions above `m`):
the window is permuted into `S ++ [z]` where `z` bounds every element of
the window from above; nothing outside the window changes. -/
theorem bubbleInnerGo_spec (T : List α) :
    ∀ (fuel : ℕ) (W P a : List α) (j m : ℕ),
      a = P ++ (W ++ T) →
      j = P.length →
      W.length = m + 1 - j →
      j ≤ m →
      m - j ≤ fuel →
      ∃ (S : List α) (z : α),
        bubbleInnerGo fuel a j m = P ++ (S ++ (z :: T)) ∧
        (S ++ [z]).Perm W ∧
        (∀ x ∈ W, x ≤ z) := by
  intro fuel
  induction fuel with
  | zero =>
    intro W P a j m ha hj hW hjm hf
    obtain ⟨x, rfl⟩ : ∃ x, W = [x] := List.length_eq_one.1 (by omega)
    refine ⟨[], x, ?_, by simp, ?_⟩
    · show a = P ++ ([] ++ (x :: T))
      rw [ha]
      simp
    · intro u hu
      rw [List.mem_singleton] at hu
      subst hu
      exact le_refl u
  | succ f ih =>
    intro W P a j m ha hj hW hjm hf
    by_cases hlt : j < m
    · rcases W with _ | ⟨x, W1⟩
      · simp only [List.length_nil] at hW
        omega
      rcases W1 with _ | ⟨y, W2⟩
      · simp only [List.length_cons, List.length_nil] at hW
        omega
      simp only [List.length_cons] at hW
      simp only [List.cons_append] at ha
      have hgj : a.getD j default = x := by
        rw [ha]
        exact getD_at_append P x (y :: (W2 ++ T)) j hj
      have hgj1 : a.getD (j + 1) default = y := by
        rw [ha]
        have h := getD_at_append (P ++ [x]) y (W2 ++ T) (j + 1)
          (by simp [hj])
        simpa only [List.append_assoc, List.singleton_append] using h
      have hstep : bubbleInnerGo (f + 1) a j m =
          bubbleInnerGo f
            (if a.getD j default > a.getD (j + 1) default then swapL a j (j + 1) else a)
            (j + 1) m := by
        simp only [bubbleInnerGo]
        rw [if_pos hlt]
      by_cases hxy : y < x
      · have hite : (if a.getD j default > a.getD (j + 1) default
              then swapL a j (j + 1) else a) = P ++ (y :: (x :: (W2 ++ T))) := by
          rw [hgj, hgj1, if_pos hxy, ha]
          have h := swapL_at_append P [] (W2 ++ T) x y j (j + 1) hj (by simp [hj])
          simpa only [List.nil_append] using h
        obtain ⟨S, z, hrun, hperm, hmax⟩ := ih (x :: W2) (P ++ [y])
          (P ++ (y :: (x :: (W2 ++ T)))) (j + 1) m
          (by simp only [List.append_assoc, List.singleton_append, List.cons_append, List.nil_append])
          (by simp [hj]) (by simp only [List.length_cons]; omega)
          (by omega) (by omega)
        refine ⟨y :: S, z, ?_, ?_, ?_⟩
        · rw [hstep, hite, hrun]
          simp only [List.append_assoc, List.singleton_append, List.cons_append, List.nil_append]
        · simp only [List.cons_append]
          exact ((hperm.cons y).trans (List.Perm.swap x y W2)).symm.symm
        · intro u hu
          have hxz : x ≤ z := hmax x (List.mem_cons_self x W2)
          rcases List.mem_cons.1 hu with h | h
          · subst h; exact hxz
          rcases List.mem_cons.1 h with h2 | h2
          · subst h2; exact le_trans (le_of_lt hxy) hxz
          · exact hmax u (List.mem_cons_of_mem x h2)
      · have hite : (if a.getD j default > a.getD (j + 1) default
              then swapL a j (j + 1) else a) = P ++ (x :: (y :: (W2 ++ T))) := by
          rw [hgj, hgj1, if_neg hxy, ha]
        obtain ⟨S, z, hrun, hperm, hmax⟩ := ih (y :: W2) (P ++ [x])
          (P ++ (x :: (y :: (W2 ++ T)))) (j + 1) m
          (by simp only [List.append_assoc, List.singleton_append, List.cons_append, List.nil_append])
          (by simp [hj]) (by simp only [List.length_cons]; omega)
          (by omega) (by omega)
        refine ⟨x :: S, z, ?_, ?_, ?_⟩
        · rw [hstep, hite, hrun]
          simp only [List.append_assoc, List.singleton_append, List.cons_append, List.nil_append]
        · simp only [List.cons_append]
          exact hperm.cons x
        · intro u hu
          have hyz : y ≤ z := hmax y (List.mem_cons_self y W2)
          rcases List.mem_cons.1 hu with h | h
          · subst h; exact le_trans (le_of_not_lt hxy) hyz
          rcases List.mem_cons.1 h with h2 | h2
          · subst h2; exact hyz
          · exact hmax u (List.mem_cons_of_mem y h2)
    · obtain ⟨x, rfl⟩ : ∃ x, W = [x] := List.length_eq_one.1 (by omega)
      refine ⟨[], x, ?_, by simp, ?_⟩
      · rw [bubbleInnerGo_exit (f + 1) a j m hlt, ha]
        simp
      · intro u hu
        rw [List.mem_singleton] at hu
        subst hu
        exact le_refl u

end BubbleSortStrategy

theorem sorted_take_drop {α : Type*} [LinearOrder α] :
    ∀ (a : List α) (k : ℕ), k ≤ 1 →
      (a.drop k).Sorted (· ≤ ·) →
      (∀ x ∈ a.take k, ∀ y ∈ a.drop k, x ≤ y) →
      a.Sorted (· ≤ ·) := by
  intro a k hk hs hcross
  cases k with
  | zero =>
    rw [List.drop_zero] at hs
    exact hs
  | succ k1 =>
    obtain rfl : k1 = 0 := by omega
    cases a with
    | nil => exact List.sorted_nil
    | cons hd tl =>
      simp only [List.drop_succ_cons, List.drop_zero] at hs hcross
      simp only [List.take_succ_cons, List.take_zero] at hcross
      rw [List.sorted_cons]
      exact ⟨fun y hy => hcross hd (List.mem_singleton.2 rfl) y hy, hs⟩

namespace BubbleSortStrategy

variable {α : Type*} [LinearOrder α] [Inhabited α]

/-- Invariant of the outer loop: after `i` passes the last `i` positions hold
a sorted suffix that bounds the unsorted prefix, and running the remaining
passes yields a sorted permutation of the list. -/
theorem bubbleOuterGo_spec :
    ∀ (fuel : ℕ) (a : List α) (i n : ℕ),
      n = a.length →
      n - 1 - i ≤ fuel →
      (a.drop (n - i)).Sorted (· ≤ ·) →
      (∀ x ∈ a.take (n - i), ∀ y ∈ a.drop (n - i), x ≤ y) →
      (bubbleOuterGo fuel a i n).Perm a ∧
      (bubbleOuterGo fuel a i n).Sorted (· ≤ ·) := by
  intro fuel
  induction fuel with
  | zero =>
    intro a i n hn hf hs hcross
    exact ⟨List.Perm.refl a, sorted_take_drop a (n - i) (by omega) hs hcross⟩
  | succ f ih =>
    intro a i n hn hf hs hcross
    by_cases hin : i < n - 1
    · obtain ⟨S, z, hrun, hperm, hmax⟩ := bubbleInnerGo_spec (a.drop (n - i))
        (n - 1 - i) (a.take (n - i)) [] a 0 (n - 1 - i)
        (by simp [List.take_append_drop])
        (by simp)
        (by rw [List.length_take]; omega)
        (by omega) (le_refl _)
      simp only [List.nil_append] at hrun
      have hstep : bubbleOuterGo (f + 1) a i n =
          bubbleOuterGo f (S ++ (z :: a.drop (n - i))) (i + 1) n := by
        simp only [bubbleOuterGo]
        rw [if_pos hin, hrun]
      have hWlen : (a.take (n - i)).length = n - i := by
        rw [List.length_take]; omega
      have hSlen : S.length = n - i - 1 := by
        have h := hperm.length_eq
        simp only [List.length_append, List.length_singleton] at h
        omega
      have hzmem : z ∈ a.take (n - i) := hperm.mem_iff.1 (by simp)
      have hb_perm : (S ++ (z :: a.drop (n - i))).Perm a := by
        have h1 : S ++ (z :: a.drop (n - i)) = (S ++ [z]) ++ a.drop (n - i) := by
          simp only [List.append_assoc, List.singleton_append, List.cons_append,
            List.nil_append]
        rw [h1]
        have h2 := hperm.append (List.Perm.refl (a.drop (n - i)))
        rw [List.take_append_drop] at h2
        exact h2
      have hdrop_b : (S ++ (z :: a.drop (n - i))).drop (n - (i + 1)) =
          z :: a.drop (n - i) :=
        @List.drop_left' α S (z :: a.drop (n - i)) (n - (i + 1)) (by omega)
      have htake_b : (S ++ (z :: a.drop (n - i))).take (n - (i + 1)) = S :=
        List.take_left' (by omega)
      obtain ⟨hp, hsrt⟩ := ih (S ++ (z :: a.drop (n - i))) (i + 1) n
        (by rw [hb_perm.length_eq]; exact hn)
        (by omega)
        (by rw [hdrop_b, List.sorted_cons]
            refine ⟨?_, hs⟩
            intro y hy
            exact hcross z hzmem y hy)
        (by rw [htake_b, hdrop_b]
            intro x hx y hy
            have hxW : x ∈ a.take (n - i) :=
              hperm.mem_iff.1 (List.mem_append.2 (Or.inl hx))
            rcases List.mem_cons.1 hy with h | h
            · rw [h]; exact hmax x hxW
            · exact hcross x hxW y h)
      rw [hstep]
      exact ⟨hp.trans hb_perm, hsrt⟩
    · have hexit : bubbleOuterGo (f + 1) a i n = a := by
        simp only [bubbleOuterGo]
        rw [if_neg hin]
      rw [hexit]
      exact ⟨List.Perm.refl a, sorted_take_drop a (n - i) (by omega) hs hcross⟩

end BubbleSortStrategy

/-- C6: for every finite sequence over a linear order, BubbleSortStrategy.sort
returns a permutation of its input in non-decreasing order. -/
theorem bubbleSort_correct {α : Type*} [LinearOrder α] [Inhabited α] (a : List α) :
    (BubbleSortStrategy.sort a).Perm a ∧
    (BubbleSortStrategy.sort a).Sorted (· ≤ ·) := by
  have hdrop : a.drop (a.length - 0) = [] := by
    rw [Nat.sub_zero, List.drop_length]
  obtain ⟨hp, hs⟩ := BubbleSortStrategy.bubbleOuterGo_spec (a.length - 1) a 0 a.length
    rfl (by omega)
    (by rw [hdrop]; exact List.sorted_nil)
    (by intro x hx y hy
        rw [hdrop] at hy
        simp at hy)
  exact ⟨hp, hs⟩
